import Mathlib

/-!
Verification model of `pagerank.py` (MapReduce PageRank).

Python strings are modelled as lists of characters (`Str`), Python floats as
exact rationals (`ℚ`), and the fallible operations of the reducers
(`float(...)`, `int(...)`, indexing, division by zero) as `Option`-valued
functions where `none` models a raised exception.
-/

namespace PR

/-- Characters of a Python string; the model represents strings as lists of characters. -/
abbrev Str := List Char

/-- Decimal digit characters, used to model Python `str(n)` for naturals. -/
def digitChar : ℕ → Char
  | 0 => '0'
  | 1 => '1'
  | 2 => '2'
  | 3 => '3'
  | 4 => '4'
  | 5 => '5'
  | 6 => '6'
  | 7 => '7'
  | 8 => '8'
  | 9 => '9'
  | _ => '*'

/-- Value of a decimal digit character, `none` on a non-digit. -/
def digitVal (c : Char) : Option ℕ :=
  if c = '0' then some 0
  else if c = '1' then some 1
  else if c = '2' then some 2
  else if c = '3' then some 3
  else if c = '4' then some 4
  else if c = '5' then some 5
  else if c = '6' then some 6
  else if c = '7' then some 7
  else if c = '8' then some 8
  else if c = '9' then some 9
  else none

/-- Whether a character is a decimal digit. -/
def isDig (c : Char) : Bool := (digitVal c).isSome

/-- Accumulating decimal parser over a character list. -/
def pGo (acc : Option ℕ) (s : Str) : Option ℕ :=
  s.foldl (fun a c =>
    match a, digitVal c with
    | some n, some d => some (10 * n + d)
    | _, _ => none) acc

/-- Parse a nonempty all-digit string to a natural number (models the digit
part of Python `int(...)`). -/
def parseNatDigits (s : Str) : Option ℕ :=
  match s with
  | [] => none
  | _ => pGo (some 0) s

/-- Model of Python `int(str)` for optionally signed decimal integers;
`none` models a `ValueError`. -/
def parseInt (s : Str) : Option ℤ :=
  match s with
  | [] => none
  | c :: rest =>
    if c = '-' then (parseNatDigits rest).map (fun n => -(n : ℤ))
    else if c = '+' then (parseNatDigits rest).map (fun n => (n : ℤ))
    else (parseNatDigits (c :: rest)).map (fun n => (n : ℤ))

/-- Numeric value of a (possibly empty) digit string. -/
def natValOf (s : Str) : ℕ := s.foldl (fun a c => 10 * a + ((digitVal c).getD 0)) 0

/-- Model of the unsigned part of Python `float(str)` for decimal literals
(`"1"`, `"1.0"`, `"1."`, `".5"`); other shapes give `none` (a `ValueError`).
Scientific notation and specials are never produced by this pipeline. -/
def parseFloatCore (s : Str) : Option ℚ :=
  let ip := s.takeWhile isDig
  let rest := s.dropWhile isDig
  match rest with
  | [] => if ip.isEmpty then none else some ((natValOf ip : ℚ))
  | '.' :: fp =>
    if fp.all isDig then
      if ip.isEmpty && fp.isEmpty then none
      else some ((natValOf ip : ℚ) + (natValOf fp : ℚ) / (10 : ℚ) ^ fp.length)
    else none
  | _ => none

/-- Model of Python `float(str)` for optionally signed decimal literals. -/
def parseFloat (s : Str) : Option ℚ :=
  match s with
  | [] => none
  | c :: rest =>
    if c = '-' then (parseFloatCore rest).map (fun q => -q)
    else if c = '+' then parseFloatCore rest
    else parseFloatCore (c :: rest)

/-- Fuel-indexed decimal rendering of a natural number. -/
def natToStrAux : ℕ → ℕ → Str
  | 0, _ => []
  | fuel + 1, n =>
    if n < 10 then [digitChar n] else natToStrAux fuel (n / 10) ++ [digitChar (n % 10)]

/-- Model of Python `str(n)` for a natural number. -/
def natToStr (n : ℕ) : Str := natToStrAux (n + 1) n

/-- Model of Python `s.split(c)` for a one-character separator. -/
def splitOnChar (c : Char) : Str → List Str
  | [] => [[]]
  | a :: rest =>
    if a = c then [] :: splitOnChar c rest
    else
      match splitOnChar c rest with
      | [] => [[a]]
      | g :: gs => (a :: g) :: gs

/-- Model of Python `s.split(chr(9))`. -/
def splitTab (s : Str) : List Str := splitOnChar '\t' s

/-- Model of Python `s.split(",")`. -/
def splitComma (s : Str) : List Str := splitOnChar ',' s

theorem splitOnChar_ne_nil (c : Char) (s : Str) : splitOnChar c s ≠ [] := by
  induction s with
  | nil => simp [splitOnChar]
  | cons a rest ih =>
    simp only [splitOnChar]
    split
    · simp
    · rcases h : splitOnChar c rest with _ | ⟨g, gs⟩
      · exact absurd h ih
      · simp

theorem splitOnChar_not_mem (c : Char) (s : Str) (h : c ∉ s) : splitOnChar c s = [s] := by
  induction s with
  | nil => rfl
  | cons a rest ih =>
    simp only [List.mem_cons, not_or] at h
    have hne : ¬a = c := fun hac => h.1 hac.symm
    simp only [splitOnChar, if_neg hne, ih h.2]

theorem splitOnChar_append (c : Char) (a b : Str) (ha : c ∉ a) :
    splitOnChar c (a ++ c :: b) = a :: splitOnChar c b := by
  induction a with
  | nil => simp [splitOnChar]
  | cons x xs ih =>
    simp only [List.mem_cons, not_or] at ha
    have hne : ¬x = c := fun hxc => ha.1 hxc.symm
    show splitOnChar c (x :: (xs ++ c :: b)) = (x :: xs) :: splitOnChar c b
    simp only [splitOnChar, if_neg hne, ih ha.2]

theorem digitVal_digitChar (n : ℕ) (h : n < 10) : digitVal (digitChar n) = some n := by
  interval_cases n <;> rfl

theorem isDig_digitChar (n : ℕ) (h : n < 10) : isDig (digitChar n) = true := by
  simp [isDig, digitVal_digitChar n h]

theorem natToStrAux_spec (fuel : ℕ) :
    ∀ n, n < fuel →
      natToStrAux fuel n ≠ [] ∧ (∀ c ∈ natToStrAux fuel n, isDig c = true) ∧
        ∀ m, pGo (some m) (natToStrAux fuel n) =
          some (m * 10 ^ (natToStrAux fuel n).length + n) := by
  induction fuel with
  | zero => intro n hn; omega
  | succ f ih =>
    intro n hn
    by_cases h10 : n < 10
    · refine ⟨by simp [natToStrAux, h10], ?_, ?_⟩
      · intro c hc
        simp only [natToStrAux, if_pos h10, List.mem_singleton] at hc
        subst hc
        exact isDig_digitChar n h10
      · intro m
        simp [natToStrAux, if_pos h10, pGo, digitVal_digitChar n h10]
        omega
    · have hdiv : n / 10 < f := by omega
      obtain ⟨hne, hdig, hval⟩ := ih (n / 10) hdiv
      refine ⟨by simp [natToStrAux, if_neg h10], ?_, ?_⟩
      · intro c hc
        simp only [natToStrAux, if_neg h10, List.mem_append, List.mem_singleton] at hc
        rcases hc with hc | hc
        · exact hdig c hc
        · subst hc
          exact isDig_digitChar _ (Nat.mod_lt _ (by omega))
      · intro m
        simp only [natToStrAux, if_neg h10, pGo, List.foldl_append]
        have := hval m
        simp only [pGo] at this
        rw [this]
        simp only [List.foldl_cons, List.foldl_nil,
          digitVal_digitChar _ (Nat.mod_lt _ (by omega)), List.length_append,
          List.length_singleton]
        have hmod := Nat.div_add_mod n 10
        congr 1
        ring_nf
        omega

theorem natToStr_ne_nil (n : ℕ) : natToStr n ≠ [] :=
  (natToStrAux_spec (n + 1) n (by omega)).1

theorem natToStr_all_dig (n : ℕ) : ∀ c ∈ natToStr n, isDig c = true :=
  (natToStrAux_spec (n + 1) n (by omega)).2.1

theorem parseNatDigits_natToStr (n : ℕ) : parseNatDigits (natToStr n) = some n := by
  have hval := (natToStrAux_spec (n + 1) n (by omega)).2.2 0
  have hne := natToStr_ne_nil n
  rcases h : natToStr n with _ | ⟨c, cs⟩
  · exact absurd h hne
  · simp only [parseNatDigits]
    rw [← h]
    unfold natToStr at h ⊢
    rw [hval]
    simp

theorem isDig_not_sign (c : Char) (h : isDig c = true) : c ≠ '-' ∧ c ≠ '+' := by
  constructor <;> rintro rfl <;> simp [isDig, digitVal] at h

theorem parseInt_natToStr (n : ℕ) : parseInt (natToStr n) = some (n : ℤ) := by
  rcases h : natToStr n with _ | ⟨c, cs⟩
  · exact absurd h (natToStr_ne_nil n)
  · have hd : isDig c = true := natToStr_all_dig n c (by rw [h]; exact List.mem_cons_self c cs)
    obtain ⟨hm, hp⟩ := isDig_not_sign c hd
    have hpn : parseNatDigits (c :: cs) = some n := by rw [← h, parseNatDigits_natToStr]
    simp [parseInt, if_neg hm, if_neg hp, hpn]

theorem natToStr_no_tab (n : ℕ) : '\t' ∉ natToStr n := by
  intro hmem
  have := natToStr_all_dig n '\t' hmem
  simp [isDig, digitVal] at this

/-!
GraphBuilder (`PageLinkCalculate`).

`link_pat = "\[.+?\]"` is modelled by `findTokens`: a match starts at a `[`,
takes at least one non-newline character non-greedily, and closes at the first
following `]`; scanning resumes after the match, or one character further when
no match starts at this `[`.

`link_page_pat = r"\[{,2}(.+?)([\]|#])"` is modelled by `searchLinkPat`: at
each start position, up to two `[` are consumed greedily, then at least one
non-newline character non-greedily up to the first `]`, `|` or `#`.
-/

/-- Closing step of one `link_pat` match attempt: given the characters after
the opening bracket, return the inner text and the remainder after `]`. -/
def tokenClose (l : Str) : Option (Str × Str) :=
  match l with
  | [] => none
  | c :: l1 =>
    if c = '\n' then none
    else
      let pre := l1.takeWhile (fun d => ¬(d = ']'))
      let post := l1.dropWhile (fun d => ¬(d = ']'))
      if pre.contains '\n' then none
      else
        match post with
        | [] => none
        | _ :: rem => some (c :: pre, rem)

/-- Fuel-indexed scan of `re.findall(link_pat, s)`. -/
def findTokensAux : ℕ → Str → List Str
  | 0, _ => []
  | fuel + 1, s =>
    match s with
    | [] => []
    | '[' :: rest =>
      match tokenClose rest with
      | some (dots, rem) => ('[' :: dots ++ [']']) :: findTokensAux fuel rem
      | none => findTokensAux fuel rest
    | _ :: rest => findTokensAux fuel rest

/-- Model of `re.findall(link_pat, s)`. -/
def findTokens (s : Str) : List Str := findTokensAux s.length s

/-- Non-greedy `(.+?)` followed by one of `]`, `|`, `#`: the captured group. -/
def tryDots (l : Str) : Option Str :=
  match l with
  | [] => none
  | c :: l1 =>
    if c = '\n' then none
    else
      let pre := l1.takeWhile (fun d => ¬(d = ']' ∨ d = '|' ∨ d = '#'))
      let post := l1.dropWhile (fun d => ¬(d = ']' ∨ d = '|' ∨ d = '#'))
      if pre.contains '\n' then none
      else
        match post with
        | [] => none
        | _ => some (c :: pre)

/-- One `link_page_pat` match attempt at a fixed position: `\[{,2}` is greedy,
so two consumed brackets are tried first, then one, then none. -/
def matchAt (l : Str) : Option Str :=
  match l with
  | '[' :: '[' :: l2 =>
    (tryDots l2).orElse fun _ =>
      (tryDots ('[' :: l2)).orElse fun _ => tryDots ('[' :: '[' :: l2)
  | '[' :: l1 => (tryDots l1).orElse fun _ => tryDots ('[' :: l1)
  | l0 => tryDots l0

/-- Fuel-indexed model of `re.search(link_page_pat, s)`: leftmost match. -/
def searchLinkPat : ℕ → Str → Option Str
  | 0, _ => none
  | fuel + 1, l =>
    (matchAt l).orElse fun _ =>
      match l with
      | [] => none
      | _ :: l1 => searchLinkPat fuel l1

/-- Model of `re.sub(r"\s", "_", s)` (ASCII whitespace). -/
def subWs (s : Str) : Str :=
  s.map (fun c =>
    if c = ' ' ∨ c = '\t' ∨ c = '\n' ∨ c = '\r' ∨ c = '\x0b' ∨ c = '\x0c' then '_' else c)

/-- Model of `s.replace(",", "")`. -/
def removeComma (s : Str) : Str := s.filter (fun c => ¬(c = ','))

/-- The ampersand character. -/
def ampChar : Char := '&'

/-- Model of `s.replace("&amp;", "&")` (left to right, non-overlapping). -/
def replaceAmp : Str → Str
  | c :: 'a' :: 'm' :: 'p' :: ';' :: rest =>
    if c = ampChar then ampChar :: replaceAmp rest
    else c :: replaceAmp ('a' :: 'm' :: 'p' :: ';' :: rest)
  | c :: rest => c :: replaceAmp rest
  | [] => []

/-- Model of `PageLinkCalculate._get_wiki_page_from_link`. -/
def getWikiPageFromLink (link : Str) : Option Str :=
  match searchLinkPat (link.length + 1) link with
  | none => none
  | some g => some (replaceAmp (removeComma (subWs g)))

/-- Target of one bracketed token as the mapper uses it: extraction followed by
the `if not other_page: continue` falsiness test (`None` or empty string). -/
def tokenTarget (tok : Str) : Option Str :=
  match getWikiPageFromLink tok with
  | none => none
  | some [] => none
  | some p => some p

/-- Edge targets extracted from a body text, in order. -/
def extractTargets (body : Str) : List Str := (findTokens body).filterMap tokenTarget

/-- Raw document handed to `PageLinkCalculate.mapper`: the `title` tag string
and the `text` tag string, each possibly absent. -/
structure Doc where
  title : Option Str
  text : Option Str

/-- Model of `PageLinkCalculate.mapper`: the title (when present) is
space-underscored, and one pair per extracted link target is yielded; the
title key stays `none` when the title is absent. -/
def plMapper (doc : Doc) : List (Option Str × Str) :=
  let t := doc.title.map (fun s => s.map (fun c => if c = ' ' then '_' else c))
  match doc.text with
  | none => []
  | some body => (findTokens body).filterMap (fun tok => (tokenTarget tok).map (fun p => (t, p)))

/-- Model of the value built by `PageLinkCalculate.reducer`:
`"1.0" + "\t" + ",".join(values)`. -/
def plReducerVal (vals : List Str) : Str := "1.0".data ++ '\t' :: List.intercalate [','] vals

/-- One full `PageLinkCalculate` pass: mapper over all documents, grouping by
key, then the reducer on each group. -/
def plPass (docs : List Doc) : List (Option Str × Str) :=
  let ems := docs.flatMap plMapper
  let ks := (ems.map Prod.fst).dedup
  ks.map (fun k => (k, plReducerVal ((ems.filter (fun e => e.1 = k)).map Prod.snd)))

/-- C3 counterexample input: a document with no title but a linked body. -/
def noTitleDoc : Doc := ⟨none, some "[[X]]".data⟩

/-- C3: the claim is false: a document whose title is absent but whose body
text contains an extractable link token does emit key/value pairs (under a
`none` title key), and a record does reach the output snapshot. -/
theorem c3_counterexample :
    plMapper noTitleDoc ≠ [] ∧ plPass [noTitleDoc] ≠ [] := by
  constructor <;> decide

/-- C3 (amended): a document whose title is absent yields no output exactly
when its body text yields no extractable link targets; in general it emits one
pair per extracted target, keyed by the absent (`none`) title. -/
theorem c3_amended_thm (text : Option Str) :
    plMapper ⟨none, text⟩ =
      match text with
      | none => []
      | some body => (extractTargets body).map (fun p => ((none : Option Str), p)) := by
  cases text with
  | none => rfl
  | some body =>
    simp only [plMapper, extractTargets, Option.map_none, List.map_filterMap]
    rfl

/-- C4 counterexample input: a document with a title but no body text. -/
def titleOnlyDoc : Doc := ⟨some "T".data, none⟩

/-- C4: the claim is false: a document with a title but no body text produces
no output record at all (no rank-1.0 empty-edge-list record). -/
theorem c4_counterexample :
    plMapper titleOnlyDoc = [] ∧ plPass [titleOnlyDoc] = [] := by
  constructor <;> decide

/-- C4 (amended): every document whose body text is absent yields no mapper
output and no record in the output snapshot, title or not. -/
theorem c4_amended_thm (docs : List Doc) (h : ∀ d ∈ docs, d.text = none) :
    docs.flatMap plMapper = [] ∧ plPass docs = [] := by
  have hems : docs.flatMap plMapper = [] := by
    induction docs with
    | nil => rfl
    | cons d ds ih =>
      have hd : plMapper d = [] := by
        have := h d (List.mem_cons_self d ds)
        simp [plMapper, this]
      simp only [List.flatMap_cons, hd, List.nil_append]
      exact ih (fun x hx => h x (List.mem_cons_of_mem d hx))
  refine ⟨hems, ?_⟩
  simp [plPass, hems]

/-- C4 (amended) witness at a concrete titled, body-less document. -/
theorem c4_amended_witness :
    [titleOnlyDoc].flatMap plMapper = [] ∧ plPass [titleOnlyDoc] = [] :=
  c4_amended_thm [titleOnlyDoc] (by decide)

/-- C5: the claim is false on its second example: the body text
`[[Foo, Bar#section]]` yields the edge target `Foo_Bar` (the whitespace is
underscored before the comma is removed), not `FooBar`. -/
theorem c5_counterexample :
    extractTargets "[[Foo, Bar#section]]".data ≠ ["FooBar".data] := by
  decide

/-- C5 (amended): `[[Some_Page|display text]]` yields the edge target
`Some_Page`, and `[[Foo, Bar#section]]` yields the edge target `Foo_Bar`. -/
theorem c5_amended_thm :
    extractTargets "[[Some_Page|display text]]".data = ["Some_Page".data] ∧
      extractTargets "[[Foo, Bar#section]]".data = ["Foo_Bar".data] := by
  constructor <;> decide

/-!
RankIterator (`RankCalculate`).

One snapshot record is the parsed form of one line of the previous pass's
output: the page field, the rank field (still a string: the mapper re-emits it
verbatim) and the optional comma-joined links field. The reducer's incoming
values are plain strings, classified by their first character exactly as the
source does; `float(...)`, `int(...)`, missing fields and division by zero
are modelled by `Option`, where `none` is a raised exception.
-/

/-- The damping factor of the rank update (`DAMPING_FACTOR = 0.85`). -/
def DAMPING_FACTOR : ℚ := 0.85

/-- Parsed snapshot record fed to `RankCalculate.mapper`: page, rank string,
and the comma-joined links field when the record has one. -/
structure Rec where
  page : Str
  rank : Str
  links : Option Str

/-- The contribution value
`page + "\t" + rank + "\t" + str(count_of_outgoing_links)`. -/
def contribV (p rk : Str) (d : ℕ) : Str := p ++ '\t' :: (rk ++ '\t' :: natToStr d)

/-- Model of `RankCalculate.mapper`: an existence marker for the page, then,
when a links field is present, one contribution
`page + "\t" + rank + "\t" + str(len(other_pages))` per comma-separated
target, and the tagged edge list `"|" + links`. -/
def rcMapper (r : Rec) : List (Str × Str) :=
  match r.links with
  | none => [(r.page, ['!'])]
  | some links =>
    let others := splitComma links
    (r.page, ['!']) ::
      (others.map (fun t => (t, contribV r.page r.rank others.length)) ++
        [(r.page, '|' :: links)])

/-- Model of the loop of `RankCalculate.reducer` over the group's values,
carrying the `existing_wiki_page` flag, `sum_share_other_ranks` and `links`;
`none` models a raised exception (empty value, missing fields, unparseable
number, or division by zero). -/
def redLoop : List Str → Bool → ℚ → Str → Option (Bool × ℚ × Str)
  | [], ex, s, l => some (ex, s, l)
  | v :: vs, ex, s, l =>
    match v with
    | [] => none
    | c :: rest =>
      if c = '!' then redLoop vs true s l
      else if c = '|' then redLoop vs ex s ('\t' :: rest)
      else
        match splitTab (c :: rest) with
        | _ :: p1 :: p2 :: _ =>
          match parseFloat p1, parseInt p2 with
          | some pr, some cnt => if cnt = 0 then none else redLoop vs ex (s + pr / (cnt : ℚ)) l
          | _, _ => none
        | _ => none

/-- Result of `RankCalculate.reducer` on one group: an exception, no output
(no existence marker), or an output record with the new rank and the links
suffix of the yielded value. -/
inductive RedResult where
  | err : RedResult
  | skip : RedResult
  | out : ℚ → Str → RedResult
deriving DecidableEq

/-- Model of `RankCalculate.reducer` on one group of values. -/
def rcReduce (vals : List Str) : RedResult :=
  match redLoop vals false 0 [] with
  | none => .err
  | some (ex, s, l) =>
    if ex then .out (DAMPING_FACTOR * s + (1 - DAMPING_FACTOR)) l else .skip

/-- Links component of a reducer result, with the rank discarded. -/
def resLinks : RedResult → Option Str
  | .out _ l => some l
  | _ => none

/-- Whether a value is classified as an existence marker (first character `!`). -/
def isMarkerV (v : Str) : Bool := v.head? = some '!'

/-- Whether a value is classified as an edge-list re-attachment (first
character `|`). -/
def isAttachV (v : Str) : Bool := v.head? = some '|'

/-- Whether one value passes the reducer loop without raising. -/
def vWellFormed (v : Str) : Bool :=
  match v with
  | [] => false
  | c :: rest =>
    if c = '!' ∨ c = '|' then true
    else
      match splitTab (c :: rest) with
      | _ :: p1 :: p2 :: _ =>
        match parseFloat p1, parseInt p2 with
        | some _, some cnt => ¬(cnt = 0)
        | _, _ => false
      | _ => false

/-- Share `contribution_rank / contribution_d` a value adds to
`sum_share_other_ranks`; marker and edge-list values add nothing. -/
def vShare (v : Str) : ℚ :=
  match v with
  | [] => 0
  | c :: rest =>
    if c = '!' ∨ c = '|' then 0
    else
      match splitTab (c :: rest) with
      | _ :: p1 :: p2 :: _ =>
        match parseFloat p1, parseInt p2 with
        | some pr, some cnt => pr / (cnt : ℚ)
        | _, _ => 0
      | _ => 0

/-- Final value of the reducer's `links` variable: the last edge-list value
wins, else the initial value. -/
def linksFold (vals : List Str) (l : Str) : Str :=
  vals.foldl
    (fun acc v =>
      match v with
      | [] => acc
      | c :: rest => if c = '|' then '\t' :: rest else acc) l

theorem linksFold_nil (l : Str) : linksFold [] l = l := rfl

theorem linksFold_cons (c : Char) (rest : Str) (vs : List Str) (l : Str) :
    linksFold ((c :: rest) :: vs) l = linksFold vs (if c = '|' then '\t' :: rest else l) := by
  by_cases h : c = '|' <;> simp [linksFold, h]

theorem linksFold_cons_nil (vs : List Str) (l : Str) :
    linksFold ([] :: vs) l = linksFold vs l := by
  simp [linksFold]

theorem redLoop_eq (vals : List Str) : ∀ (ex : Bool) (s : ℚ) (l : Str),
    redLoop vals ex s l =
      if vals.all vWellFormed then
        some (ex || vals.any isMarkerV, s + (vals.map vShare).sum, linksFold vals l)
      else none := by
  induction vals with
  | nil => intro ex s l; simp [redLoop, linksFold]
  | cons v vs ih =>
    intro ex s l
    rcases v with _ | ⟨c, rest⟩
    · have hL : redLoop ([] :: vs) ex s l = none := by simp [redLoop]
      have hw : vWellFormed [] = false := rfl
      simp [hL, hw]
    · by_cases hc : c = '!'
      · subst hc
        have hL : redLoop (('!' :: rest) :: vs) ex s l = redLoop vs true s l := by
          simp [redLoop]
        have hm : isMarkerV ('!' :: rest) = true := by simp [isMarkerV]
        have hs : vShare ('!' :: rest) = 0 := by simp [vShare]
        have hw : vWellFormed ('!' :: rest) = true := by simp [vWellFormed]
        rw [hL, ih, linksFold_cons]
        simp [hw, hm, hs]
      · by_cases hp : c = '|'
        · subst hp
          have hL : redLoop (('|' :: rest) :: vs) ex s l = redLoop vs ex s ('\t' :: rest) := by
            simp [redLoop]
          have hm : isMarkerV ('|' :: rest) = false := by simp [isMarkerV]
          have hs : vShare ('|' :: rest) = 0 := by simp [vShare]
          have hw : vWellFormed ('|' :: rest) = true := by simp [vWellFormed]
          rw [hL, ih, linksFold_cons]
          simp [hw, hm, hs]
        · have hm : isMarkerV (c :: rest) = false := by simp [isMarkerV, hc]
          have hcO : ¬(c = '!' ∨ c = '|') := by tauto
          have hlf : linksFold ((c :: rest) :: vs) l = linksFold vs l := by
            rw [linksFold_cons, if_neg hp]
          rcases hsp : splitTab (c :: rest) with _ | ⟨p0, _ | ⟨p1, _ | ⟨p2, ps⟩⟩⟩
          all_goals (try (
            have hL : redLoop ((c :: rest) :: vs) ex s l = none := by
              simp only [redLoop, if_neg hc, if_neg hp, hsp]
            have hw : vWellFormed (c :: rest) = false := by
              simp only [vWellFormed, if_neg hcO, hsp]
            simp [hL, hw]))
          rcases hpf : parseFloat p1 with _ | pr
          · have hL : redLoop ((c :: rest) :: vs) ex s l = none := by
              simp only [redLoop, if_neg hc, if_neg hp, hsp, hpf]
            have hw : vWellFormed (c :: rest) = false := by
              simp only [vWellFormed, if_neg hcO, hsp, hpf]
            simp [hL, hw]
          · rcases hpi : parseInt p2 with _ | cnt
            · have hL : redLoop ((c :: rest) :: vs) ex s l = none := by
                simp only [redLoop, if_neg hc, if_neg hp, hsp, hpf, hpi]
              have hw : vWellFormed (c :: rest) = false := by
                simp only [vWellFormed, if_neg hcO, hsp, hpf, hpi]
              simp [hL, hw]
            · by_cases hz : cnt = 0
              · subst hz
                have hL : redLoop ((c :: rest) :: vs) ex s l = none := by
                  simp only [redLoop, if_neg hc, if_neg hp, hsp, hpf, hpi]
                  simp
                have hw : vWellFormed (c :: rest) = false := by
                  simp only [vWellFormed, if_neg hcO, hsp, hpf, hpi]
                  simp
                simp [hL, hw]
              · have hL : redLoop ((c :: rest) :: vs) ex s l =
                    redLoop vs ex (s + pr / (cnt : ℚ)) l := by
                  simp only [redLoop, if_neg hc, if_neg hp, hsp, hpf, hpi, if_neg hz]
                have hw : vWellFormed (c :: rest) = true := by
                  simp only [vWellFormed, if_neg hcO, hsp, hpf, hpi]
                  simp [hz]
                have hs : vShare (c :: rest) = pr / (cnt : ℚ) := by
                  simp only [vShare, if_neg hcO, hsp, hpf, hpi]
                rw [hL, ih, hlf]
                simp only [List.all_cons, hw, Bool.true_and, List.any_cons, hm,
                  Bool.false_or, List.map_cons, List.sum_cons, hs]
                split
                · rw [add_assoc]
                · rfl

theorem rcReduce_eq (vals : List Str) :
    rcReduce vals =
      if vals.all vWellFormed then
        if vals.any isMarkerV then
          .out (DAMPING_FACTOR * (vals.map vShare).sum + (1 - DAMPING_FACTOR))
            (linksFold vals [])
        else .skip
      else .err := by
  unfold rcReduce
  rw [redLoop_eq]
  by_cases hwf : vals.all vWellFormed = true
  · rw [if_pos hwf, if_pos hwf]
    by_cases hm : vals.any isMarkerV = true
    · simp [hm, zero_add]
    · simp [hm]
  · rw [if_neg hwf, if_neg hwf]

theorem rcReduce_out_formula (vals : List Str) (hwf : vals.all vWellFormed = true)
    (hm : vals.any isMarkerV = true) :
    rcReduce vals =
      .out (DAMPING_FACTOR * (vals.map vShare).sum + (1 - DAMPING_FACTOR))
        (linksFold vals []) := by
  rw [rcReduce_eq, if_pos hwf, if_pos hm]

/-- C1: on every group whose values all parse and that contains an existence
marker, the reducer emits the new rank
`DAMPING_FACTOR * sum_share + (1 - DAMPING_FACTOR)`, where `sum_share` is the
sum over the group's values of the share `contribution_rank / contribution_d`
(markers and edge-list values contribute zero). -/
theorem c1_rank_formula (vals : List Str) (hwf : vals.all vWellFormed = true)
    (hm : vals.any isMarkerV = true) :
    rcReduce vals =
      .out (DAMPING_FACTOR * (vals.map vShare).sum + (1 - DAMPING_FACTOR))
        (linksFold vals []) :=
  rcReduce_out_formula vals hwf hm

/-- C1 witness: the formula instantiated on a concrete group holding a marker
and one contribution of rank 1.0 spread over 2 outgoing links. -/
theorem c1_rank_formula_witness :
    rcReduce [['!'], "A\t1.0\t2".data] =
      .out (DAMPING_FACTOR * (([['!'], "A\t1.0\t2".data].map vShare).sum) +
          (1 - DAMPING_FACTOR))
        (linksFold [['!'], "A\t1.0\t2".data] []) :=
  c1_rank_formula [['!'], "A\t1.0\t2".data] (by decide) (by decide)

theorem perm_all_eq (p : Str → Bool) (l1 l2 : List Str) (h : l1.Perm l2) :
    l1.all p = l2.all p := by
  have hiff : l1.all p = true ↔ l2.all p = true := by
    simp only [List.all_eq_true]
    exact ⟨fun H x hx => H x (h.mem_iff.mpr hx), fun H x hx => H x (h.mem_iff.mp hx)⟩
  cases h2 : l2.all p
  · cases hb : l1.all p
    · rfl
    · have hx := hiff.mp hb
      rw [h2] at hx
      exact hx.symm
  · exact hiff.mpr h2

theorem perm_any_eq (p : Str → Bool) (l1 l2 : List Str) (h : l1.Perm l2) :
    l1.any p = l2.any p := by
  have hiff : l1.any p = true ↔ l2.any p = true := by
    simp only [List.any_eq_true]
    exact ⟨fun ⟨x, hx, hpx⟩ => ⟨x, h.mem_iff.mp hx, hpx⟩,
      fun ⟨x, hx, hpx⟩ => ⟨x, h.mem_iff.mpr hx, hpx⟩⟩
  cases h2 : l2.any p
  · cases hb : l1.any p
    · rfl
    · have hx := hiff.mp hb
      rw [h2] at hx
      exact hx.symm
  · exact hiff.mpr h2

theorem linksFold_filter (vals : List Str) : ∀ l : Str,
    linksFold vals l =
      match (vals.filter isAttachV).getLast? with
      | some v => '\t' :: v.tail
      | none => l := by
  induction vals with
  | nil => intro l; rfl
  | cons v vs ih =>
    intro l
    rcases v with _ | ⟨c, rest⟩
    · rw [linksFold_cons_nil, ih l,
        show ([] :: vs).filter isAttachV = vs.filter isAttachV from by simp [isAttachV]]
    · by_cases hp : c = '|'
      · subst hp
        have hfc : (('|' :: rest) :: vs).filter isAttachV =
            ('|' :: rest) :: vs.filter isAttachV := by
          simp [isAttachV]
        rw [linksFold_cons, if_pos rfl, ih ('\t' :: rest), hfc]
        rcases hFl : vs.filter isAttachV with _ | ⟨w, ws⟩
        · rfl
        · have hcc : (('|' :: rest) :: w :: ws).getLast? = (w :: ws).getLast? := rfl
          rw [hcc]
          have hs2 : ((w :: ws).getLast?).isSome = true := by
            rw [List.getLast?_isSome]
            simp
          obtain ⟨u, hu⟩ := Option.isSome_iff_exists.mp hs2
          rw [hu]
      · have hfc : ((c :: rest) :: vs).filter isAttachV = vs.filter isAttachV := by
          simp [List.filter_cons, isAttachV, hp]
        rw [linksFold_cons, if_neg hp, ih l, hfc]

/-- C7 counterexample inputs: a group holding two distinct edge-list values,
in the two delivery orders. -/
def c7valsA : List Str := [['!'], "|A".data, "|B".data]

/-- Reordering of `c7valsA`. -/
def c7valsB : List Str := [['!'], "|B".data, "|A".data]

/-- C7: the claim is false: the reducer is not invariant under permutation of
the values of a group when the group holds two distinct edge-list values (the
last one delivered wins), so the emitted record differs between orders. -/
theorem c7_counterexample :
    c7valsA.Perm c7valsB ∧ resLinks (rcReduce c7valsA) ≠ resLinks (rcReduce c7valsB) := by
  constructor
  · decide
  · decide

theorem rcReduce_perm_of_le_one_attach (vals vals2 : List Str) (hperm : vals.Perm vals2)
    (hatt : (vals.filter isAttachV).length ≤ 1) :
    rcReduce vals = rcReduce vals2 := by
  have hall := perm_all_eq vWellFormed vals vals2 hperm
  have hany := perm_any_eq isMarkerV vals vals2 hperm
  have hsum : (vals.map vShare).sum = (vals2.map vShare).sum :=
    (hperm.map vShare).sum_eq
  have hfil : vals.filter isAttachV = vals2.filter isAttachV := by
    have hpf := hperm.filter isAttachV
    rcases hF : vals.filter isAttachV with _ | ⟨w, ws⟩
    · rw [hF] at hpf
      exact (hpf.nil_eq).symm ▸ rfl
    · rw [hF] at hpf hatt
      rcases ws with _ | ⟨w2, ws2⟩
      · exact (List.Perm.eq_singleton hpf.symm).symm
      · simp at hatt
  have hlf : linksFold vals [] = linksFold vals2 [] := by
    rw [linksFold_filter, linksFold_filter, hfil]
  rw [rcReduce_eq, rcReduce_eq, hall, hany, hsum, hlf]


/-- C10: the reducer classifies a value solely by its first character, so a
contribution built by the mapper from a source page whose identifier starts
with `!` or `|` is misclassified: its share is excluded from
`sum_share_other_ranks` (the accumulator is passed on unchanged) and the value
acts as a marker, or as an edge-list re-attachment, instead. -/
theorem c10_sentinel_misclassification (c : Char) (pt rk : Str) (d : ℕ)
    (vs : List Str) (ex : Bool) (s : ℚ) (l : Str) (hc : c = '!' ∨ c = '|') :
    vShare (contribV (c :: pt) rk d) = 0 ∧
      redLoop (contribV (c :: pt) rk d :: vs) ex s l =
        (if c = '!' then redLoop vs true s l
         else redLoop vs ex s ('\t' :: (pt ++ '\t' :: (rk ++ '\t' :: natToStr d)))) := by
  rcases hc with hc | hc
  · subst hc
    constructor
    · simp [vShare, contribV]
    · simp [redLoop, contribV]
  · subst hc
    constructor
    · simp [vShare, contribV]
    · simp [redLoop, contribV]

/-- C10 witness: a contribution from source page `!A` of rank 1.0 and
out-degree 1 is consumed as a bare existence marker. -/
theorem c10_sentinel_misclassification_witness :
    vShare (contribV ('!' :: "A".data) "1.0".data 1) = 0 ∧
      redLoop (contribV ('!' :: "A".data) "1.0".data 1 :: []) false 0 [] =
        (if '!' = '!' then redLoop [] true 0 []
         else redLoop [] false 0
          ('\t' :: ("A".data ++ '\t' :: ("1.0".data ++ '\t' :: natToStr 1)))) :=
  c10_sentinel_misclassification '!' "A".data "1.0".data 1 [] false 0 [] (Or.inl rfl)

/-!
One full `RankCalculate` pass: mapper over every record, grouping of the
emissions by key, reducer on every group. An exception in any reducer call
(`RedResult.err`) fails the whole pass (`none`).
-/

/-- All mapper emissions of a snapshot, in order. -/
def emsOf (snap : List Rec) : List (Str × Str) := snap.flatMap rcMapper

/-- The distinct keys of a list of emissions. -/
def keysOf (ems : List (Str × Str)) : List Str := (ems.map Prod.fst).dedup

/-- The group of values delivered to the reducer for one key. -/
def valuesFor (k : Str) (ems : List (Str × Str)) : List Str :=
  (ems.filter (fun e => e.1 = k)).map Prod.snd

/-- Output `(page, new rank, links)` record of one key's group, when its
reduction emits one. -/
def outFor (snap : List Rec) (k : Str) : Option (Str × ℚ × Str) :=
  match rcReduce (valuesFor k (emsOf snap)) with
  | .out q l => some (k, q, l)
  | _ => none

/-- One full `RankCalculate` pass over a snapshot: `none` when any group's
reduction raises, otherwise the output records `(page, new rank, links)`. -/
def rcPass (snap : List Rec) : Option (List (Str × ℚ × Str)) :=
  if (keysOf (emsOf snap)).all
      (fun k => ¬(rcReduce (valuesFor k (emsOf snap)) = RedResult.err)) then
    some ((keysOf (emsOf snap)).filterMap (outFor snap))
  else none

theorem mem_valuesFor (k v : Str) (ems : List (Str × Str)) :
    v ∈ valuesFor k ems ↔ (k, v) ∈ ems := by
  simp only [valuesFor, List.mem_map, List.mem_filter, decide_eq_true_eq]
  constructor
  · rintro ⟨⟨k1, v1⟩, ⟨hm, hk⟩, hv⟩
    simp only at hk hv
    subst hk
    subst hv
    exact hm
  · intro hm
    exact ⟨(k, v), ⟨hm, rfl⟩, rfl⟩

theorem mem_keysOf (k : Str) (ems : List (Str × Str)) :
    k ∈ keysOf ems ↔ ∃ v, (k, v) ∈ ems := by
  simp only [keysOf, List.mem_dedup, List.mem_map]
  constructor
  · rintro ⟨⟨k1, v1⟩, hm, hk⟩
    simp only at hk
    subst hk
    exact ⟨v1, hm⟩
  · rintro ⟨v, hm⟩
    exact ⟨(k, v), hm, rfl⟩

theorem mem_emsOf (e : Str × Str) (snap : List Rec) :
    e ∈ emsOf snap ↔ ∃ r ∈ snap, e ∈ rcMapper r := by
  simp [emsOf, List.mem_flatMap]

theorem rcPass_some_of_no_err (snap : List Rec)
    (hne : ∀ k ∈ keysOf (emsOf snap), ¬(rcReduce (valuesFor k (emsOf snap)) = .err)) :
    rcPass snap = some ((keysOf (emsOf snap)).filterMap (outFor snap)) := by
  unfold rcPass
  rw [if_pos]
  simp only [List.all_eq_true, decide_eq_true_eq]
  exact hne

theorem rcPass_no_err (snap : List Rec) (out : List (Str × ℚ × Str))
    (h : rcPass snap = some out) :
    ∀ k ∈ keysOf (emsOf snap), ¬(rcReduce (valuesFor k (emsOf snap)) = .err) := by
  unfold rcPass at h
  split at h
  · next hc =>
    simp only [List.all_eq_true, decide_eq_true_eq] at hc
    exact hc
  · cases h

theorem rcPass_out_eq (snap : List Rec) (out : List (Str × ℚ × Str))
    (h : rcPass snap = some out) :
    out = (keysOf (emsOf snap)).filterMap (outFor snap) := by
  unfold rcPass at h
  split at h
  · injection h with h2
    exact h2.symm
  · cases h

theorem outFor_eq_some_iff (snap : List Rec) (k k1 : Str) (q : ℚ) (l : Str) :
    outFor snap k1 = some (k, q, l) ↔
      k1 = k ∧ rcReduce (valuesFor k (emsOf snap)) = .out q l := by
  unfold outFor
  rcases hr : rcReduce (valuesFor k1 (emsOf snap)) with _ | _ | ⟨q1, l1⟩
  · constructor
    · intro hg
      simp at hg
    · rintro ⟨rfl, h2⟩
      rw [hr] at h2
      cases h2
  · constructor
    · intro hg
      simp at hg
    · rintro ⟨rfl, h2⟩
      rw [hr] at h2
      cases h2
  · simp only [Option.some.injEq, Prod.mk.injEq]
    constructor
    · rintro ⟨h1, h2, h3⟩
      subst h1
      subst h2
      subst h3
      exact ⟨rfl, hr⟩
    · rintro ⟨h1, h2⟩
      subst h1
      rw [hr] at h2
      injection h2 with h2 h3
      exact ⟨rfl, h2, h3⟩

theorem rcPass_mem (snap : List Rec) (out : List (Str × ℚ × Str))
    (h : rcPass snap = some out) (k : Str) (q : ℚ) (l : Str) :
    (k, q, l) ∈ out ↔
      k ∈ keysOf (emsOf snap) ∧
        rcReduce (valuesFor k (emsOf snap)) = .out q l := by
  rw [rcPass_out_eq snap out h, List.mem_filterMap]
  constructor
  · rintro ⟨k1, hk1, hg⟩
    obtain ⟨h1, h2⟩ := (outFor_eq_some_iff snap k k1 q l).mp hg
    subst h1
    exact ⟨hk1, h2⟩
  · rintro ⟨hk, hr⟩
    exact ⟨k, hk, (outFor_eq_some_iff snap k k q l).mpr ⟨rfl, hr⟩⟩

/-- C2: a record for a key appears in the pass output exactly when an
existence marker was observed among the key's group values; a key that
received only contributions is dropped from the next snapshot. -/
theorem c2_marker_presence (snap : List Rec) (out : List (Str × ℚ × Str)) (k : Str)
    (h : rcPass snap = some out) :
    (∃ q l, (k, q, l) ∈ out) ↔
      (valuesFor k (emsOf snap)).any isMarkerV = true := by
  constructor
  · rintro ⟨q, l, hm⟩
    obtain ⟨hk, hr⟩ := (rcPass_mem snap out h k q l).mp hm
    rw [rcReduce_eq] at hr
    by_cases hwf : (valuesFor k (emsOf snap)).all vWellFormed = true
    · rw [if_pos hwf] at hr
      by_cases hmk : (valuesFor k (emsOf snap)).any isMarkerV = true
      · exact hmk
      · rw [if_neg hmk] at hr
        cases hr
    · rw [if_neg hwf] at hr
      cases hr
  · intro hmk
    obtain ⟨v, hv, hpv⟩ := List.any_eq_true.mp hmk
    have hkmem : k ∈ keysOf (emsOf snap) :=
      (mem_keysOf k (emsOf snap)).mpr ⟨v, (mem_valuesFor k v (emsOf snap)).mp hv⟩
    have hnoerr := rcPass_no_err snap out h k hkmem
    rw [rcReduce_eq] at hnoerr
    by_cases hwf : (valuesFor k (emsOf snap)).all vWellFormed = true
    · refine ⟨DAMPING_FACTOR * (((valuesFor k (emsOf snap)).map vShare).sum) +
        (1 - DAMPING_FACTOR), linksFold (valuesFor k (emsOf snap)) [], ?_⟩
      rw [rcPass_mem snap out h]
      refine ⟨hkmem, ?_⟩
      rw [rcReduce_eq, if_pos hwf, if_pos hmk]
    · rw [if_neg hwf] at hnoerr
      exact absurd rfl hnoerr

/-- C2 witness snapshot: page `A` links to `B`, and `B` is never defined. -/
def c2snap : List Rec := [⟨"A".data, "1.0".data, some "B".data⟩]

/-- C2 witness: on the concrete snapshot, the dangling target `B` has no
record in the pass output, as its group holds no existence marker. -/
theorem c2_marker_presence_witness :
    (∃ q l, ("B".data, q, l) ∈ (rcPass c2snap).getD []) ↔
      (valuesFor "B".data (emsOf c2snap)).any isMarkerV = true := by
  have hs : (rcPass c2snap).isSome = true := by decide
  obtain ⟨o, ho⟩ := Option.isSome_iff_exists.mp hs
  have h2 : rcPass c2snap = some ((rcPass c2snap).getD []) := by
    rw [ho]
    rfl
  exact c2_marker_presence c2snap ((rcPass c2snap).getD []) "B".data h2

/-- C9: on a snapshot where every record has no links field, one pass
succeeds and every surviving page's new rank is `1 - DAMPING_FACTOR`. -/
theorem c9_no_edges_rank (snap : List Rec) (h : ∀ r ∈ snap, r.links = none) :
    ∃ out, rcPass snap = some out ∧ ∀ e ∈ out, e.2.1 = 1 - DAMPING_FACTOR := by
  have hall : ∀ e ∈ emsOf snap, e.2 = ['!'] := by
    intro e he
    obtain ⟨r, hr, hmem⟩ := (mem_emsOf e snap).mp he
    have hl := h r hr
    rw [rcMapper, hl] at hmem
    simp only [List.mem_singleton] at hmem
    rw [hmem]
  have hred : ∀ k ∈ keysOf (emsOf snap),
      rcReduce (valuesFor k (emsOf snap)) =
        .out (DAMPING_FACTOR * (((valuesFor k (emsOf snap)).map vShare).sum) +
          (1 - DAMPING_FACTOR)) (linksFold (valuesFor k (emsOf snap)) []) := by
    intro k hk
    have hvals : ∀ v ∈ valuesFor k (emsOf snap), v = ['!'] := by
      intro v hv
      exact hall (k, v) ((mem_valuesFor k v (emsOf snap)).mp hv)
    have hwf : (valuesFor k (emsOf snap)).all vWellFormed = true := by
      rw [List.all_eq_true]
      intro v hv
      rw [hvals v hv]
      rfl
    have hmk : (valuesFor k (emsOf snap)).any isMarkerV = true := by
      obtain ⟨v, hv⟩ := (mem_keysOf k (emsOf snap)).mp hk
      have hvm : v ∈ valuesFor k (emsOf snap) := (mem_valuesFor k v (emsOf snap)).mpr hv
      rw [List.any_eq_true]
      refine ⟨v, hvm, ?_⟩
      rw [hvals v hvm]
      rfl
    exact rcReduce_out_formula _ hwf hmk
  have hnoerr : ∀ k ∈ keysOf (emsOf snap),
      ¬(rcReduce (valuesFor k (emsOf snap)) = .err) := by
    intro k hk
    rw [hred k hk]
    intro hx
    cases hx
  refine ⟨_, rcPass_some_of_no_err snap hnoerr, ?_⟩
  rintro ⟨k, q, l⟩ hm
  obtain ⟨hk, hr⟩ := (rcPass_mem snap _ (rcPass_some_of_no_err snap hnoerr) k q l).mp hm
  rw [hred k hk] at hr
  injection hr with h1 h2
  have hsum : (((valuesFor k (emsOf snap)).map vShare).sum) = 0 := by
    apply List.sum_eq_zero
    intro x hx
    obtain ⟨v, hv, hxv⟩ := List.mem_map.mp hx
    have : v = ['!'] := hall (k, v) ((mem_valuesFor k v (emsOf snap)).mp hv)
    rw [this] at hxv
    rw [← hxv]
    rfl
  simp only
  rw [← h1, hsum, mul_zero, zero_add]

/-- C9 witness snapshot: two pages with no links fields. -/
def c9snap : List Rec := [⟨"A".data, "1.0".data, none⟩, ⟨"B".data, "0.5".data, none⟩]

/-- C9 witness: the theorem applied to the concrete two-page edgeless
snapshot. -/
theorem c9_no_edges_rank_witness :
    ∃ out, rcPass c9snap = some out ∧ ∀ e ∈ out, e.2.1 = 1 - DAMPING_FACTOR :=
  c9_no_edges_rank c9snap (by decide)

/-- Well-formedness of a page identifier: nonempty, not starting with one of
the reducer's sentinel characters, and holding no tab. -/
def pageOK (p : Str) : Bool :=
  ¬(p = []) ∧ ¬(p.head? = some '!') ∧ ¬(p.head? = some '|') ∧ ¬('\t' ∈ p)

theorem pageOK_spec (p : Str) (h : pageOK p = true) :
    ∃ c pt, p = c :: pt ∧ ¬(c = '!') ∧ ¬(c = '|') ∧ ¬('\t' ∈ p) := by
  simp only [pageOK, decide_eq_true_eq] at h
  obtain ⟨h1, h2, h3, h4⟩ := h
  rcases p with _ | ⟨c, pt⟩
  · exact absurd rfl h1
  · simp only [List.head?_cons, Option.some.injEq] at h2 h3
    exact ⟨c, pt, rfl, h2, h3, h4⟩

theorem splitTab_contrib (p rk : Str) (d : ℕ) (hp : ¬('\t' ∈ p)) (hr : ¬('\t' ∈ rk)) :
    splitTab (contribV p rk d) = [p, rk, natToStr d] := by
  unfold contribV splitTab
  rw [splitOnChar_append _ _ _ hp, splitOnChar_append _ _ _ hr,
    splitOnChar_not_mem _ _ (natToStr_no_tab d)]

theorem contribV_cons (c : Char) (pt rk : Str) (dd : ℕ) :
    contribV (c :: pt) rk dd = c :: (pt ++ '\t' :: (rk ++ '\t' :: natToStr dd)) := by
  simp [contribV]

theorem contrib_classify (p rk : Str) (dd : ℕ) (q : ℚ) (hpO : pageOK p = true)
    (hq : parseFloat rk = some q) (hrt : ¬('\t' ∈ rk)) (hdd : ¬(dd = 0)) :
    vWellFormed (contribV p rk dd) = true ∧
      vShare (contribV p rk dd) = q / (dd : ℚ) ∧
      isMarkerV (contribV p rk dd) = false ∧
      isAttachV (contribV p rk dd) = false := by
  obtain ⟨c, pt, hpe, hc1, hc2, hpt⟩ := pageOK_spec p hpO
  subst hpe
  have hcO : ¬(c = '!' ∨ c = '|') := by tauto
  have hsp : splitTab (c :: (pt ++ '\t' :: (rk ++ '\t' :: natToStr dd))) =
      [c :: pt, rk, natToStr dd] := by
    rw [← contribV_cons]
    exact splitTab_contrib (c :: pt) rk dd hpt hrt
  have hpi : parseInt (natToStr dd) = some (dd : ℤ) := parseInt_natToStr dd
  have hcast : (((dd : ℤ) : ℚ)) = (dd : ℚ) := by push_cast; rfl
  refine ⟨?_, ?_, ?_, ?_⟩
  · rw [contribV_cons]
    simp only [vWellFormed, if_neg hcO, hsp, hq, hpi]
    simp [hdd]
  · rw [contribV_cons]
    simp only [vShare, if_neg hcO, hsp, hq, hpi]
    rw [hcast]
  · rw [contribV_cons]
    simp [isMarkerV, hc1]
  · rw [contribV_cons]
    simp [isAttachV, hc2]

theorem mem_rcMapper (r : Rec) (k v : Str) :
    (k, v) ∈ rcMapper r ↔
      (k = r.page ∧ v = ['!']) ∨
      ∃ ls, r.links = some ls ∧
        ((k ∈ splitComma ls ∧
          v = contribV r.page r.rank (splitComma ls).length) ∨
         (k = r.page ∧ v = '|' :: ls)) := by
  rcases hl : r.links with _ | ls
  · simp [rcMapper, hl, Prod.ext_iff]
  · simp only [rcMapper, hl, List.mem_cons, List.mem_append, List.mem_map,
      List.mem_singleton, List.not_mem_nil, or_false, Prod.mk.injEq, Option.some.injEq]
    constructor
    · rintro (⟨hk, hv⟩ | ⟨t, ht, htk, htv⟩ | ⟨hk, hv⟩)
      · exact Or.inl ⟨hk, hv⟩
      · exact Or.inr ⟨ls, rfl, Or.inl ⟨htk ▸ ht, htv.symm⟩⟩
      · exact Or.inr ⟨ls, rfl, Or.inr ⟨hk, hv⟩⟩
    · rintro (⟨hk, hv⟩ | ⟨ls2, hls2, (⟨ht, hv⟩ | ⟨hk, hv⟩)⟩)
      · exact Or.inl ⟨hk, hv⟩
      · subst hls2
        exact Or.inr (Or.inl ⟨k, ht, rfl, hv.symm⟩)
      · subst hls2
        exact Or.inr (Or.inr ⟨hk, hv⟩)

theorem valuesFor_cons (k : Str) (e : Str × Str) (ems : List (Str × Str)) :
    valuesFor k (e :: ems) =
      if e.1 = k then e.2 :: valuesFor k ems else valuesFor k ems := by
  by_cases h : e.1 = k <;> simp [valuesFor, List.filter_cons, h]

theorem sum_map_filter_split (l : List (Str × Str)) (p : Str × Str → Bool)
    (f : Str × Str → ℚ) :
    ((l.filter p).map f).sum + ((l.filter (fun x => !(p x))).map f).sum = (l.map f).sum := by
  induction l with
  | nil => simp
  | cons x xs ih =>
    cases hp : p x
    · rw [List.filter_cons_of_neg (by simp [hp]), List.filter_cons_of_pos (by simp [hp]),
        List.map_cons, List.sum_cons, List.map_cons, List.sum_cons, ← ih]
      ring
    · rw [List.filter_cons_of_pos hp, List.filter_cons_of_neg (by simp [hp]),
        List.map_cons, List.sum_cons, List.map_cons, List.sum_cons, ← ih]
      ring

theorem valuesFor_filter_ne (k k1 : Str) (h : ¬(k1 = k)) (ems : List (Str × Str)) :
    valuesFor k1 (ems.filter (fun e => !(decide (e.1 = k)))) = valuesFor k1 ems := by
  induction ems with
  | nil => rfl
  | cons e ems ih =>
    by_cases he : e.1 = k
    · have hne : ¬(e.1 = k1) := by
        rw [he]
        intro hx
        exact h hx.symm
      rw [List.filter_cons_of_neg (by simp [he]), ih, valuesFor_cons, if_neg hne]
    · rw [List.filter_cons_of_pos (by simp [he]), valuesFor_cons, valuesFor_cons]
      by_cases he1 : e.1 = k1
      · rw [if_pos he1, if_pos he1, ih]
      · rw [if_neg he1, if_neg he1, ih]

theorem sum_groups (ks : List Str) : ∀ (ems : List (Str × Str)), ks.Nodup →
    (∀ e ∈ ems, e.1 ∈ ks) →
    (ks.map (fun k => ((valuesFor k ems).map vShare).sum)).sum =
      (ems.map (fun e => vShare e.2)).sum := by
  induction ks with
  | nil =>
    intro ems _ hcov
    rcases ems with _ | ⟨e, ems⟩
    · rfl
    · exact absurd (hcov e (List.mem_cons_self e ems)) (List.not_mem_nil _)
  | cons k ks ih =>
    intro ems hnd hcov
    have hknotin : k ∉ ks := (List.nodup_cons.mp hnd).1
    have hnd2 := (List.nodup_cons.mp hnd).2
    have hsplit := sum_map_filter_split ems (fun e => decide (e.1 = k)) (fun e => vShare e.2)
    have hcov2 : ∀ e ∈ ems.filter (fun e => !(decide (e.1 = k))), e.1 ∈ ks := by
      intro e he
      obtain ⟨hm, hp⟩ := List.mem_filter.mp he
      have hne : ¬(e.1 = k) := by
        intro hx
        simp [hx] at hp
      rcases List.mem_cons.mp (hcov e hm) with hx | hx
      · exact absurd hx hne
      · exact hx
    have hvk : ((valuesFor k ems).map vShare) =
        ((ems.filter (fun e => decide (e.1 = k))).map (fun e => vShare e.2)) := by
      simp [valuesFor, List.map_map, Function.comp]
    have hmap2 : (ks.map (fun k1 => ((valuesFor k1 ems).map vShare).sum)) =
        (ks.map (fun k1 =>
          ((valuesFor k1 (ems.filter (fun e => !(decide (e.1 = k))))).map vShare).sum)) := by
      apply List.map_congr_left
      intro k1 hk1
      have hne : ¬(k1 = k) := fun hx => hknotin (hx ▸ hk1)
      rw [valuesFor_filter_ne k k1 hne]
    rw [List.map_cons, List.sum_cons, hvk, hmap2,
      ih (ems.filter (fun e => !(decide (e.1 = k)))) hnd2 hcov2]
    exact hsplit

theorem sum_map_affine (ks : List Str) (g : Str → ℚ) (a c : ℚ) :
    (ks.map (fun k => a * g k + c)).sum = a * (ks.map g).sum + c * (ks.length : ℚ) := by
  induction ks with
  | nil => simp
  | cons k ks ih =>
    simp only [List.map_cons, List.sum_cons, ih, List.length_cons]
    push_cast
    ring

theorem sum_map_const_q (l : List Str) (c : ℚ) :
    (l.map (fun _ => c)).sum = (l.length : ℚ) * c := by
  induction l with
  | nil => simp
  | cons x xs ih =>
    simp only [List.map_cons, List.sum_cons, ih, List.length_cons]
    push_cast
    ring

theorem filterMap_outFor_ranks (snap : List Rec) (ks : List Str) (g : Str → ℚ)
    (hall : ∀ k ∈ ks, rcReduce (valuesFor k (emsOf snap)) =
      .out (g k) (linksFold (valuesFor k (emsOf snap)) [])) :
    ((ks.filterMap (outFor snap)).map (fun e => e.2.1)) = ks.map g := by
  induction ks with
  | nil => rfl
  | cons k ks ih =>
    have hk := hall k (List.mem_cons_self k ks)
    have ho : outFor snap k = some (k, g k, linksFold (valuesFor k (emsOf snap)) []) := by
      unfold outFor
      rw [hk]
    simp only [List.filterMap_cons, ho, List.map_cons]
    rw [ih (fun k1 h1 => hall k1 (List.mem_cons_of_mem k h1))]

theorem emsOf_cons (r : Rec) (snap : List Rec) :
    emsOf (r :: snap) = rcMapper r ++ emsOf snap := by
  simp [emsOf]

theorem ems_share_total (snap : List Rec)
    (h1 : ∀ r ∈ snap, ((rcMapper r).map (fun e => vShare e.2)).sum = 1) :
    ((emsOf snap).map (fun e => vShare e.2)).sum = (snap.length : ℚ) := by
  induction snap with
  | nil => simp [emsOf]
  | cons r snap ih =>
    rw [emsOf_cons, List.map_append, List.sum_append, h1 r (List.mem_cons_self r snap),
      ih (fun r2 h2 => h1 r2 (List.mem_cons_of_mem r h2))]
    simp only [List.length_cons]
    push_cast
    ring

/-- C6 (amended): on a snapshot of `N` pages with distinct well-formed page
identifiers, every rank string parsing to 1.0, a links field of uniform
out-degree `d > 0`, and no dangling references, one pass succeeds and the sum
of all output ranks is exactly
`DAMPING_FACTOR * N + (1 - DAMPING_FACTOR) * N` (so in particular within any
positive tolerance of it). -/
theorem c6_mass_conservation (snap : List Rec) (d : ℕ) (hd : 0 < d)
    (hnd : (snap.map Rec.page).Nodup)
    (hOK : ∀ r ∈ snap, pageOK r.page = true)
    (hrank : ∀ r ∈ snap, parseFloat r.rank = some 1 ∧ ¬('\t' ∈ r.rank))
    (hlink : ∀ r ∈ snap, ¬(r.links = none) ∧
      (splitComma (r.links.getD [])).length = d ∧
      ∀ t ∈ splitComma (r.links.getD []), t ∈ snap.map Rec.page) :
    ∃ out, rcPass snap = some out ∧
      (out.map (fun e => e.2.1)).sum =
        DAMPING_FACTOR * (snap.length : ℚ) + (1 - DAMPING_FACTOR) * (snap.length : ℚ) := by
  have hdne : ¬(d = 0) := by omega
  have hlink2 : ∀ r ∈ snap, ∃ ls, r.links = some ls ∧ (splitComma ls).length = d ∧
      ∀ t ∈ splitComma ls, t ∈ snap.map Rec.page := by
    intro r hr
    obtain ⟨h1, h2, h3⟩ := hlink r hr
    rcases hls : r.links with _ | ls
    · exact absurd hls h1
    · rw [hls] at h2 h3
      simp only [Option.getD_some] at h2 h3
      exact ⟨ls, rfl, h2, h3⟩
  have hwfall : ∀ k v, (k, v) ∈ emsOf snap → vWellFormed v = true := by
    intro k v hm
    obtain ⟨r, hr, hmr⟩ := (mem_emsOf (k, v) snap).mp hm
    rcases (mem_rcMapper r k v).mp hmr with ⟨hk, hv⟩ | ⟨ls, hls, (⟨ht, hv⟩ | ⟨hk, hv⟩)⟩
    · rw [hv]
      rfl
    · obtain ⟨ls2, hls2, hlen, _⟩ := hlink2 r hr
      rw [hls] at hls2
      injection hls2 with he
      subst he
      rw [hv, hlen]
      exact (contrib_classify r.page r.rank d 1 (hOK r hr) (hrank r hr).1
        (hrank r hr).2 hdne).1
    · rw [hv]
      simp [vWellFormed]
  have hkeys : ∀ k, k ∈ keysOf (emsOf snap) ↔ k ∈ snap.map Rec.page := by
    intro k
    constructor
    · intro hk
      obtain ⟨v, hv⟩ := (mem_keysOf k (emsOf snap)).mp hk
      obtain ⟨r, hr, hmr⟩ := (mem_emsOf (k, v) snap).mp hv
      rcases (mem_rcMapper r k v).mp hmr with ⟨hk2, _⟩ | ⟨ls, hls, (⟨ht, _⟩ | ⟨hk2, _⟩)⟩
      · exact List.mem_map.mpr ⟨r, hr, hk2.symm⟩
      · obtain ⟨ls2, hls2, _, htgt⟩ := hlink2 r hr
        rw [hls] at hls2
        injection hls2 with he
        subst he
        exact htgt k ht
      · exact List.mem_map.mpr ⟨r, hr, hk2.symm⟩
    · intro hk
      obtain ⟨r, hr, hpk⟩ := List.mem_map.mp hk
      have hmm : (k, ['!']) ∈ rcMapper r :=
        (mem_rcMapper r k ['!']).mpr (Or.inl ⟨hpk.symm, rfl⟩)
      exact (mem_keysOf k (emsOf snap)).mpr
        ⟨['!'], (mem_emsOf (k, ['!']) snap).mpr ⟨r, hr, hmm⟩⟩
  have hknd : (keysOf (emsOf snap)).Nodup := by
    unfold keysOf
    exact List.nodup_dedup _
  have hkperm : (keysOf (emsOf snap)).Perm (snap.map Rec.page) :=
    (List.perm_ext_iff_of_nodup hknd hnd).mpr hkeys
  have hklen : ((keysOf (emsOf snap)).length : ℚ) = (snap.length : ℚ) := by
    rw [hkperm.length_eq, List.length_map]
  have hred : ∀ k ∈ keysOf (emsOf snap),
      rcReduce (valuesFor k (emsOf snap)) =
        .out (DAMPING_FACTOR * (((valuesFor k (emsOf snap)).map vShare).sum) +
          (1 - DAMPING_FACTOR)) (linksFold (valuesFor k (emsOf snap)) []) := by
    intro k hk
    apply rcReduce_out_formula
    · rw [List.all_eq_true]
      intro v hv
      exact hwfall k v ((mem_valuesFor k v _).mp hv)
    · obtain ⟨r, hr, hpk⟩ := List.mem_map.mp ((hkeys k).mp hk)
      have hmm : (k, ['!']) ∈ emsOf snap :=
        (mem_emsOf _ snap).mpr ⟨r, hr, (mem_rcMapper r k ['!']).mpr (Or.inl ⟨hpk.symm, rfl⟩)⟩
      rw [List.any_eq_true]
      exact ⟨['!'], (mem_valuesFor k ['!'] _).mpr hmm, rfl⟩
  have hnoerr : ∀ k ∈ keysOf (emsOf snap),
      ¬(rcReduce (valuesFor k (emsOf snap)) = .err) := by
    intro k hk heq
    rw [hred k hk] at heq
    cases heq
  have hpass := rcPass_some_of_no_err snap hnoerr
  have hrec1 : ∀ r ∈ snap, ((rcMapper r).map (fun e => vShare e.2)).sum = 1 := by
    intro r hr
    obtain ⟨ls, hls, hlen, _⟩ := hlink2 r hr
    have hcc := contrib_classify r.page r.rank d 1 (hOK r hr) (hrank r hr).1
      (hrank r hr).2 hdne
    have hmap : rcMapper r = (r.page, ['!']) ::
        ((splitComma ls).map (fun t => (t, contribV r.page r.rank (splitComma ls).length)) ++
          [(r.page, '|' :: ls)]) := by
      simp only [rcMapper, hls]
    rw [hmap]
    simp only [List.map_cons, List.sum_cons, List.map_append, List.sum_append, List.map_map]
    have h0 : vShare ['!'] = 0 := rfl
    have h2 : vShare ('|' :: ls) = 0 := by simp [vShare]
    have hmid : ((splitComma ls).map
        ((fun e : Str × Str => vShare e.2) ∘
          (fun t => (t, contribV r.page r.rank (splitComma ls).length)))).sum = 1 := by
      have hfun : ((fun e : Str × Str => vShare e.2) ∘
          (fun t : Str => (t, contribV r.page r.rank (splitComma ls).length))) =
          (fun t : Str => vShare (contribV r.page r.rank (splitComma ls).length)) := by
        funext t
        rfl
      rw [hfun]
      simp only [hlen, hcc.2.1]
      rw [sum_map_const_q, hlen, mul_one_div, div_self (Nat.cast_ne_zero.mpr hdne)]
    rw [hmid, h0, h2]
    simp
  have htotal : ((emsOf snap).map (fun e => vShare e.2)).sum = (snap.length : ℚ) :=
    ems_share_total snap hrec1
  have hcov : ∀ e ∈ emsOf snap, e.1 ∈ keysOf (emsOf snap) := by
    intro e he
    refine (mem_keysOf e.1 (emsOf snap)).mpr ⟨e.2, ?_⟩
    rwa [Prod.mk.eta]
  have hgroups := sum_groups (keysOf (emsOf snap)) (emsOf snap) hknd hcov
  have hranks := filterMap_outFor_ranks snap (keysOf (emsOf snap))
    (fun k => DAMPING_FACTOR * (((valuesFor k (emsOf snap)).map vShare).sum) +
      (1 - DAMPING_FACTOR)) hred
  refine ⟨_, hpass, ?_⟩
  rw [hranks]
  calc ((keysOf (emsOf snap)).map
        (fun k => DAMPING_FACTOR * (((valuesFor k (emsOf snap)).map vShare).sum) +
          (1 - DAMPING_FACTOR))).sum
      = DAMPING_FACTOR * ((keysOf (emsOf snap)).map
          (fun k => ((valuesFor k (emsOf snap)).map vShare).sum)).sum +
        (1 - DAMPING_FACTOR) * ((keysOf (emsOf snap)).length : ℚ) := by
        exact sum_map_affine (keysOf (emsOf snap))
          (fun k => ((valuesFor k (emsOf snap)).map vShare).sum) DAMPING_FACTOR
          (1 - DAMPING_FACTOR)
    _ = DAMPING_FACTOR * (snap.length : ℚ) + (1 - DAMPING_FACTOR) * (snap.length : ℚ) := by
        rw [hgroups, htotal, hklen]

theorem parseFloat_one : parseFloat "1.0".data = some 1 := by
  rw [show "1.0".data = '1' :: '.' :: '0' :: [] from rfl]
  have hne1 : ¬('1' = '-') := by decide
  have hne2 : ¬('1' = '+') := by decide
  rw [show parseFloat ('1' :: '.' :: '0' :: []) = parseFloatCore ('1' :: '.' :: '0' :: [])
    from by simp [parseFloat, hne1, hne2]]
  have ht : (('1' :: '.' :: '0' :: []) : Str).takeWhile isDig = ['1'] := by decide
  have hd : (('1' :: '.' :: '0' :: []) : Str).dropWhile isDig = ['.', '0'] := by decide
  have hall : (['0'] : Str).all isDig = true := by decide
  have hn1 : natValOf ['1'] = 1 := by decide
  have hn0 : natValOf ['0'] = 0 := by decide
  simp only [parseFloatCore, ht, hd, hall, hn1, hn0, List.length_singleton,
    List.isEmpty_cons, Bool.false_and, if_true, Bool.false_eq_true, if_false]
  norm_num

theorem parseFloat_two : parseFloat "2.0".data = some 2 := by
  rw [show "2.0".data = '2' :: '.' :: '0' :: [] from rfl]
  have hne1 : ¬('2' = '-') := by decide
  have hne2 : ¬('2' = '+') := by decide
  rw [show parseFloat ('2' :: '.' :: '0' :: []) = parseFloatCore ('2' :: '.' :: '0' :: [])
    from by simp [parseFloat, hne1, hne2]]
  have ht : (('2' :: '.' :: '0' :: []) : Str).takeWhile isDig = ['2'] := by decide
  have hd : (('2' :: '.' :: '0' :: []) : Str).dropWhile isDig = ['.', '0'] := by decide
  have hall : (['0'] : Str).all isDig = true := by decide
  have hn1 : natValOf ['2'] = 2 := by decide
  have hn0 : natValOf ['0'] = 0 := by decide
  simp only [parseFloatCore, ht, hd, hall, hn1, hn0, List.length_singleton,
    List.isEmpty_cons, Bool.false_and, if_true, Bool.false_eq_true, if_false]
  norm_num

/-- C6 witness snapshot: the two-cycle A→B, B→A with ranks 1.0. -/
def c6wsnap : List Rec :=
  [⟨"A".data, "1.0".data, some "B".data⟩, ⟨"B".data, "1.0".data, some "A".data⟩]

/-- C6 (amended) witness: one pass over the two-cycle conserves the total
mass `damping*2 + (1-damping)*2`. -/
theorem c6_mass_conservation_witness :
    ∃ out, rcPass c6wsnap = some out ∧
      (out.map (fun e => e.2.1)).sum =
        DAMPING_FACTOR * (c6wsnap.length : ℚ) +
          (1 - DAMPING_FACTOR) * (c6wsnap.length : ℚ) :=
  c6_mass_conservation c6wsnap 1 (by omega) (by decide) (by decide)
    (by
      intro r hr
      fin_cases hr <;> exact ⟨parseFloat_one, by decide⟩)
    (by decide)

/-- C6 counterexample snapshot: one page of rank 2.0 linking to itself — no
dangling reference, uniform out-degree 1. -/
def c6cex : List Rec := [⟨"A".data, "2.0".data, some "A".data⟩]

/-- C6: the claim is false as stated: with input rank 2.0 the sum of ranks
after the pass is 37/20, not `damping*N + (1-damping)*N = 1`, and not within
the 1e-6 tolerance of it. -/
theorem c6_counterexample :
    (rcPass c6cex).map (fun o => (o.map (fun e => e.2.1)).sum) = some ((37 : ℚ)/20) ∧
      ¬(|((37 : ℚ)/20) - (DAMPING_FACTOR * (c6cex.length : ℚ) +
        (1 - DAMPING_FACTOR) * (c6cex.length : ℚ))| ≤ 1/1000000) := by
  have hvals : valuesFor "A".data (emsOf c6cex) = [['!'], "A\t2.0\t1".data, "|A".data] := by
    decide
  have hsum : (((valuesFor "A".data (emsOf c6cex)).map vShare).sum) = 2 := by
    rw [hvals]
    have h1 : vShare ['!'] = 0 := rfl
    have h3 : vShare "|A".data = 0 := by
      rw [show "|A".data = '|' :: ['A'] from rfl]
      simp [vShare]
    have h2 : vShare "A\t2.0\t1".data = 2 := by
      rw [show "A\t2.0\t1".data = 'A' :: "\t2.0\t1".data from rfl]
      have hsp : splitTab ('A' :: "\t2.0\t1".data) = ["A".data, "2.0".data, "1".data] := by
        decide
      have hpi : parseInt "1".data = some 1 := by decide
      have hcor : ¬('A' = '!' ∨ 'A' = '|') := by decide
      have hpf2 : parseFloat ['2', '.', '0'] = some 2 := parseFloat_two
      simp only [vShare, if_neg hcor, hsp, parseFloat_two, hpf2, hpi]
      norm_num
    simp only [List.map_cons, List.map_nil, List.sum_cons, List.sum_nil, h1, h2, h3]
    norm_num
  have hred : rcReduce (valuesFor "A".data (emsOf c6cex)) =
      .out (DAMPING_FACTOR * (((valuesFor "A".data (emsOf c6cex)).map vShare).sum) +
        (1 - DAMPING_FACTOR)) (linksFold (valuesFor "A".data (emsOf c6cex)) []) :=
    rcReduce_out_formula _ (by decide) (by decide)
  have hks : keysOf (emsOf c6cex) = ["A".data] := by decide
  have hnoerr : ∀ k ∈ keysOf (emsOf c6cex),
      ¬(rcReduce (valuesFor k (emsOf c6cex)) = .err) := by
    intro k hk
    rw [hks, List.mem_singleton] at hk
    subst hk
    rw [hred]
    intro hx
    cases hx
  have hpass := rcPass_some_of_no_err c6cex hnoerr
  constructor
  · rw [hpass, hks]
    have ho : outFor c6cex "A".data =
        some ("A".data,
          DAMPING_FACTOR * (((valuesFor "A".data (emsOf c6cex)).map vShare).sum) +
            (1 - DAMPING_FACTOR),
          linksFold (valuesFor "A".data (emsOf c6cex)) []) := by
      unfold outFor
      rw [hred]
    simp only [List.filterMap_cons, ho, List.filterMap_nil, Option.map_some,
      List.map_cons, List.map_nil, List.sum_cons, List.sum_nil, Option.some.injEq]
    rw [hsum]
    norm_num [DAMPING_FACTOR]
  · intro habs
    have h1 : DAMPING_FACTOR * ((c6cex.length : ℚ)) +
        (1 - DAMPING_FACTOR) * ((c6cex.length : ℚ)) = 1 := by
      norm_num [DAMPING_FACTOR, c6cex]
    rw [h1] at habs
    rw [show |((37 : ℚ)/20) - 1| = 17/20 from by
      rw [show ((37 : ℚ)/20) - 1 = 17/20 from by norm_num]
      rw [abs_of_pos]
      norm_num] at habs
    norm_num at habs

/-!
Chained passes. The output record `(page, rank, links)` is turned back into an
input record by re-serializing the rank (the serialization of the new float
rank is a parameter `f`, as nothing below depends on its exact format) and
splitting the links suffix off its leading tab.
-/

/-- Links part of the reducer's yielded value for a record with the given
links field: the empty suffix, or a tab followed by the links. -/
def linksStrOf : Option Str → Str
  | none => []
  | some s => '\t' :: s

/-- Parse one pass-output record back into a snapshot record, with `f`
standing for the rank serialization `str(new_rank)`. -/
def recOfOut (f : ℚ → Str) (e : Str × ℚ × Str) : Rec :=
  ⟨e.1, f e.2.1,
    match e.2.2 with
    | '\t' :: rest => some rest
    | _ => none⟩

/-- Chain `n` RankCalculate passes, feeding each pass's output records back in
as the next pass's snapshot. -/
def iterPassN (f : ℚ → Str) : ℕ → List Rec → Option (List Rec)
  | 0, snap => some snap
  | n + 1, snap =>
    match rcPass snap with
    | none => none
    | some out => iterPassN f n (out.map (recOfOut f))

theorem contribV_not_sentinel (p rk : Str) (dd : ℕ) (hpO : pageOK p = true) :
    isMarkerV (contribV p rk dd) = false ∧ isAttachV (contribV p rk dd) = false := by
  obtain ⟨c, pt, hpe, hc1, hc2, _⟩ := pageOK_spec p hpO
  subst hpe
  rw [contribV_cons]
  constructor
  · simp [isMarkerV, hc1]
  · simp [isAttachV, hc2]

theorem marker_gives_page (snap : List Rec) (hOK : ∀ r ∈ snap, pageOK r.page = true)
    (k v : Str) (hm : (k, v) ∈ emsOf snap) (hmk : isMarkerV v = true) :
    ∃ r ∈ snap, r.page = k := by
  obtain ⟨r, hr, hmr⟩ := (mem_emsOf (k, v) snap).mp hm
  rcases (mem_rcMapper r k v).mp hmr with ⟨hk, _⟩ | ⟨ls, _, (⟨_, hv⟩ | ⟨hk, hv⟩)⟩
  · exact ⟨r, hr, hk.symm⟩
  · rw [hv] at hmk
    rw [(contribV_not_sentinel r.page r.rank _ (hOK r hr)).1] at hmk
    cases hmk
  · exact ⟨r, hr, hk.symm⟩

/-- Edge-list values the mapper emits from one record under a given key. -/
def attachOf (k : Str) (r : Rec) : List Str :=
  if r.page = k then
    match r.links with
    | some ls => ['|' :: ls]
    | none => []
  else []

theorem valuesFor_append (k : Str) (ems1 ems2 : List (Str × Str)) :
    valuesFor k (ems1 ++ ems2) = valuesFor k ems1 ++ valuesFor k ems2 := by
  simp [valuesFor, List.filter_append]

theorem filter_attach_rcMapper (r : Rec) (hOKr : pageOK r.page = true) (k : Str) :
    (valuesFor k (rcMapper r)).filter isAttachV = attachOf k r := by
  have hmnot : isAttachV ['!'] = false := by simp [isAttachV]
  rcases hl : r.links with _ | ls
  · have hmap : rcMapper r = [(r.page, ['!'])] := by simp [rcMapper, hl]
    rw [hmap]
    unfold attachOf
    rw [hl]
    by_cases hpk : r.page = k
    · simp [valuesFor_cons, hpk, valuesFor, hmnot, hpk]
    · simp [valuesFor_cons, hpk, valuesFor]
  · have hmap : rcMapper r = (r.page, ['!']) ::
        ((splitComma ls).map (fun t => (t, contribV r.page r.rank (splitComma ls).length)) ++
          [(r.page, '|' :: ls)]) := by
      simp only [rcMapper, hl]
    have hcnot : isAttachV (contribV r.page r.rank (splitComma ls).length) = false :=
      (contribV_not_sentinel r.page r.rank _ hOKr).2
    have hanot : isAttachV ('|' :: ls) = true := by simp [isAttachV]
    rw [hmap, valuesFor_cons, valuesFor_append]
    have hcon : (valuesFor k ((splitComma ls).map
        (fun t => (t, contribV r.page r.rank (splitComma ls).length)))).filter isAttachV
        = [] := by
      have hval : ∀ v ∈ valuesFor k ((splitComma ls).map
          (fun t => (t, contribV r.page r.rank (splitComma ls).length))),
          v = contribV r.page r.rank (splitComma ls).length := by
        intro v hv
        have hv2 := (mem_valuesFor k v _).mp hv
        obtain ⟨t, _, hte⟩ := List.mem_map.mp hv2
        rw [Prod.ext_iff] at hte
        exact hte.2.symm
      rw [List.filter_eq_nil_iff]
      intro v hv
      rw [hval v hv]
      simp [hcnot]
    have hsing : (valuesFor k [(r.page, '|' :: ls)]).filter isAttachV = attachOf k r := by
      unfold attachOf
      rw [hl]
      by_cases hpk : r.page = k
      · simp [valuesFor_cons, hpk, valuesFor, hanot]
      · simp [valuesFor_cons, hpk, valuesFor]
    by_cases hpk : r.page = k
    · rw [if_pos hpk, List.filter_cons_of_neg (by simp [hmnot]), List.filter_append,
        hcon, hsing, List.nil_append]
    · rw [if_neg hpk, List.filter_append, hcon, hsing, List.nil_append]

theorem filter_attach_group (snap : List Rec) (hOK : ∀ r ∈ snap, pageOK r.page = true)
    (k : Str) :
    (valuesFor k (emsOf snap)).filter isAttachV = snap.flatMap (attachOf k) := by
  induction snap with
  | nil => rfl
  | cons r snap ih =>
    rw [emsOf_cons, valuesFor_append, List.filter_append,
      filter_attach_rcMapper r (hOK r (List.mem_cons_self r snap)) k,
      ih (fun r2 h2 => hOK r2 (List.mem_cons_of_mem r h2)), List.flatMap_cons]

theorem flatMap_eq_nil_of_all (l : List Rec) (f : Rec → List Str)
    (h : ∀ x ∈ l, f x = []) : l.flatMap f = [] := by
  induction l with
  | nil => rfl
  | cons x xs ih =>
    rw [List.flatMap_cons, h x (List.mem_cons_self x xs),
      ih (fun y hy => h y (List.mem_cons_of_mem x hy)), List.nil_append]

theorem flatMap_attach_of_page (snap : List Rec) (hnd : (snap.map Rec.page).Nodup)
    (r0 : Rec) (hr0 : r0 ∈ snap) :
    snap.flatMap (attachOf r0.page) = attachOf r0.page r0 := by
  induction snap with
  | nil => cases hr0
  | cons r snap ih =>
    rw [List.map_cons, List.nodup_cons] at hnd
    rcases List.mem_cons.mp hr0 with he | hm
    · subst he
      rw [List.flatMap_cons, flatMap_eq_nil_of_all snap (attachOf r0.page) ?hnil,
        List.append_nil]
      case hnil =>
        intro r2 hr2
        have hne : ¬(r2.page = r0.page) := by
          intro hx
          exact hnd.1 (hx ▸ List.mem_map.mpr ⟨r2, hr2, rfl⟩)
        simp [attachOf, hne]
    · have hne : ¬(r.page = r0.page) := by
        intro hx
        exact hnd.1 (hx ▸ List.mem_map.mpr ⟨r0, hm, rfl⟩)
      rw [List.flatMap_cons, ih hnd.2 hm]
      have hz : attachOf r0.page r = [] := by simp [attachOf, hne]
      rw [hz, List.nil_append]

theorem attach_count_le_one (snap : List Rec) (hnd : (snap.map Rec.page).Nodup)
    (hOK : ∀ r ∈ snap, pageOK r.page = true) (k : Str) :
    ((valuesFor k (emsOf snap)).filter isAttachV).length ≤ 1 := by
  rw [filter_attach_group snap hOK k]
  by_cases hex : ∃ r0 ∈ snap, r0.page = k
  · obtain ⟨r0, hr0, hpk⟩ := hex
    subst hpk
    rw [flatMap_attach_of_page snap hnd r0 hr0]
    unfold attachOf
    rw [if_pos rfl]
    cases hls : r0.links <;> simp
  · push_neg at hex
    rw [flatMap_eq_nil_of_all snap _ ?hnil]
    · simp
    case hnil =>
      intro r hr
      have hne := hex r hr
      simp [attachOf, hne]

/-- C7 (amended): on a snapshot with distinct, well-formed page identifiers
(nonempty, not starting with `!` or `|`, tab-free), the reducer's result on
every group of the pass is invariant under permutation of the group's values.
In general the reducer is order-dependent: a group holding two distinct
edge-list re-attachment values keeps the last one delivered, as the
counterexample shows. -/
theorem c7_perm_invariant (snap : List Rec) (k : Str) (vals2 : List Str)
    (hnd : (snap.map Rec.page).Nodup)
    (hOK : ∀ r ∈ snap, pageOK r.page = true)
    (hperm : (valuesFor k (emsOf snap)).Perm vals2) :
    rcReduce (valuesFor k (emsOf snap)) = rcReduce vals2 :=
  rcReduce_perm_of_le_one_attach _ vals2 hperm (attach_count_le_one snap hnd hOK k)

/-- C7 (amended) witness snapshot: one well-formed page linking to `B`. -/
def c7wsnap : List Rec := [⟨"A".data, "1.0".data, some "B".data⟩]

/-- C7 (amended) witness: the reducer result on the group for key `A` is
unchanged when its marker and edge-list values are delivered in the other
order. -/
theorem c7_perm_invariant_witness :
    rcReduce (valuesFor "A".data (emsOf c7wsnap)) = rcReduce ["|B".data, ['!']] :=
  c7_perm_invariant c7wsnap "A".data ["|B".data, ['!']] (by decide) (by decide) (by decide)

theorem rcReduce_out_inv (vals : List Str) (q : ℚ) (l : Str)
    (h : rcReduce vals = .out q l) :
    vals.all vWellFormed = true ∧ vals.any isMarkerV = true ∧
      q = DAMPING_FACTOR * ((vals.map vShare).sum) + (1 - DAMPING_FACTOR) ∧
      l = linksFold vals [] := by
  rw [rcReduce_eq] at h
  by_cases h1 : vals.all vWellFormed = true
  · rw [if_pos h1] at h
    by_cases h2 : vals.any isMarkerV = true
    · rw [if_pos h2] at h
      injection h with ha hb
      exact ⟨h1, h2, ha.symm, hb.symm⟩
    · rw [if_neg h2] at h
      cases h
  · rw [if_neg h1] at h
    cases h

theorem outFor_keeps_key (snap : List Rec) (k : Str) (e : Str × ℚ × Str)
    (h : outFor snap k = some e) : e.1 = k := by
  unfold outFor at h
  rcases hr : rcReduce (valuesFor k (emsOf snap)) with _ | _ | ⟨q1, l1⟩ <;> rw [hr] at h
  · cases h
  · cases h
  · injection h with h2
    rw [← h2]

theorem filterMap_outFor_keys_sublist (snap : List Rec) (ks : List Str) :
    ((ks.filterMap (outFor snap)).map (fun e => e.1)).Sublist ks := by
  induction ks with
  | nil => simp
  | cons k ks ih =>
    rcases ho : outFor snap k with _ | e
    · rw [List.filterMap_cons, ho]
      exact ih.cons k
    · rw [List.filterMap_cons, ho, List.map_cons, outFor_keeps_key snap k e ho]
      exact ih.cons₂ k

/-- One pass preserves pages and edge lists: every output record's links field
is exactly the links suffix of the unique input record with that page, the
output pages stay well formed, and they stay distinct. -/
theorem rcPass_preserve (snap : List Rec) (out : List (Str × ℚ × Str))
    (hnd : (snap.map Rec.page).Nodup)
    (hOK : ∀ r ∈ snap, pageOK r.page = true)
    (h : rcPass snap = some out) :
    (∀ e ∈ out, ∃ r ∈ snap, r.page = e.1 ∧ e.2.2 = linksStrOf r.links ∧
      pageOK e.1 = true) ∧
      ((out.map (fun e => e.1)).Nodup) := by
  constructor
  · rintro ⟨k, q, l⟩ hm
    obtain ⟨hk, hr⟩ := (rcPass_mem snap out h k q l).mp hm
    obtain ⟨hwf, hmk, hq, hl⟩ := rcReduce_out_inv _ q l hr
    obtain ⟨v, hv, hpv⟩ := List.any_eq_true.mp hmk
    obtain ⟨r0, hr0, hpk⟩ := marker_gives_page snap hOK k v
      ((mem_valuesFor k v _).mp hv) hpv
    refine ⟨r0, hr0, hpk, ?_, hpk ▸ hOK r0 hr0⟩
    rw [hl, linksFold_filter, filter_attach_group snap hOK k, ← hpk,
      flatMap_attach_of_page snap hnd r0 hr0]
    rcases hls : r0.links with _ | ls
    · simp [attachOf, hls, linksStrOf]
    · simp [attachOf, hls, linksStrOf]
  · rw [rcPass_out_eq snap out h]
    exact (filterMap_outFor_keys_sublist snap (keysOf (emsOf snap))).nodup
      (by unfold keysOf; exact List.nodup_dedup _)

theorem recOfOut_links (f : ℚ → Str) (e : Str × ℚ × Str) (o : Option Str)
    (h : e.2.2 = linksStrOf o) : (recOfOut f e).links = o := by
  cases o with
  | none => simp [recOfOut, h, linksStrOf]
  | some s => simp [recOfOut, h, linksStrOf]

/-- C8 (amended): over any number of chained passes on a snapshot with
distinct, well-formed page identifiers, every surviving record's page and
links field are those of an input record — only the rank field changes,
whatever serialization `f` is used to re-emit the rank between passes. -/
theorem c8_links_immutable (f : ℚ → Str) (n : ℕ) : ∀ (snap snap2 : List Rec),
    (snap.map Rec.page).Nodup → (∀ r ∈ snap, pageOK r.page = true) →
    iterPassN f n snap = some snap2 →
    ∀ r2 ∈ snap2, ∃ r ∈ snap, r.page = r2.page ∧ r.links = r2.links := by
  induction n with
  | zero =>
    intro snap snap2 _ _ hit r2 hr2
    injection hit with hh
    subst hh
    exact ⟨r2, hr2, rfl, rfl⟩
  | succ n ih =>
    intro snap snap2 hnd hOK hit
    rcases hp : rcPass snap with _ | out
    · rw [show iterPassN f (n + 1) snap = none from by simp [iterPassN, hp]] at hit
      cases hit
    · rw [show iterPassN f (n + 1) snap = iterPassN f n (out.map (recOfOut f)) from by
        simp [iterPassN, hp]] at hit
      obtain ⟨hpres, hnd2⟩ := rcPass_preserve snap out hnd hOK hp
      have hcomp : Rec.page ∘ recOfOut f = fun e : Str × ℚ × Str => e.1 :=
        funext fun e => rfl
      have hnd3 : ((out.map (recOfOut f)).map Rec.page).Nodup := by
        rw [List.map_map, hcomp]
        exact hnd2
      have hOK3 : ∀ r ∈ out.map (recOfOut f), pageOK r.page = true := by
        intro r hrm
        obtain ⟨e, he, hre⟩ := List.mem_map.mp hrm
        obtain ⟨r0, _, _, _, hok⟩ := hpres e he
        rw [← hre]
        exact hok
      intro r2 hr2
      obtain ⟨r1, hr1, hpg, hlk⟩ := ih (out.map (recOfOut f)) snap2 hnd3 hOK3 hit r2 hr2
      obtain ⟨e, he, hre⟩ := List.mem_map.mp hr1
      obtain ⟨r0, hr0, hpk, hl, _⟩ := hpres e he
      refine ⟨r0, hr0, ?_, ?_⟩
      · rw [hpk, ← hpg, ← hre]
        rfl
      · have h1 : (recOfOut f e).links = r0.links := recOfOut_links f e r0.links hl
        rw [hre] at h1
        rw [← h1]
        exact hlk

/-- C8 counterexample snapshot: the source page is named `|P`, so its
contribution to `A` starts with the edge-list sentinel character. -/
def c8cex : List Rec :=
  [⟨"|P".data, "1.0".data, some "A".data⟩, ⟨"A".data, "1.0".data, none⟩]

/-- C8: the claim is false as stated: page `A` survives the pass, but its
edge list is not the one it had in the input snapshot (empty) — it becomes
the tail of the misclassified contribution value `|P\t1.0\t1`. -/
theorem c8_counterexample :
    (rcPass c8cex).map (fun o => o.map (fun e => (e.1, e.2.2))) =
      some [("|P".data, "\tA".data), ("A".data, "\tP\t1.0\t1".data)] ∧
      (∀ r ∈ c8cex, r.page = "A".data → linksStrOf r.links = []) ∧
      ¬("\tP\t1.0\t1".data = ([] : Str)) :=
  ⟨by decide, by decide, by decide⟩

/-- C8 witness snapshot: one well-formed self-linking page. -/
def c8wit : List Rec := [⟨"A".data, "1.0".data, some "A".data⟩]

/-- C8 (amended) witness: two chained passes on the self-loop snapshot
succeed and keep page and edge list of every surviving record unchanged. -/
theorem c8_links_immutable_witness :
    ∃ snap2, iterPassN (fun _ => "1.0".data) 2 c8wit = some snap2 ∧
      ∀ r2 ∈ snap2, ∃ r ∈ c8wit, r.page = r2.page ∧ r.links = r2.links := by
  have hs : (iterPassN (fun _ => "1.0".data) 2 c8wit).isSome = true := by decide
  obtain ⟨o, ho⟩ := Option.isSome_iff_exists.mp hs
  exact ⟨o, ho, c8_links_immutable (fun _ => "1.0".data) 2 c8wit o (by decide) (by decide) ho⟩

end PR
